import Mathlib

/-!
Verification of the least-squares sphere-fit routine of
`Python/33_Segmentation_Thresholding_Edge_Detection.ipynb` (cell 18).

The notebook builds, for a list of 3D physical points, the matrix `A` with
one row per point — initialised to all ones and then overwritten on the
first three columns by `-2 * point` — and the vector `b` with entries
`-‖point‖²`, solves `A·u ≈ b` by `numpy.linalg.lstsq`, and reports the
radius `sqrt(‖res[0:3]‖² - res[3])`.

The embedding works over exact rationals.  The call to
`numpy.linalg.lstsq` is an external library call; its documented contract
(return the least-squares solution of minimum Euclidean norm) is embedded
as the predicate `IsLstsq`.
-/

namespace SphereFit

open Matrix

/-- A 3D physical point, as produced by `TransformIndexToPhysicalPoint`. -/
structure Point3D where
  x : ℚ
  y : ℚ
  z : ℚ
  deriving DecidableEq

/-- `linalg.norm(point)**2`: the squared Euclidean norm of a point. -/
def normSq (p : Point3D) : ℚ := p.x ^ 2 + p.y ^ 2 + p.z ^ 2

/-- The coordinate array of a point, mirroring `np.array(point)`. -/
def coords (p : Point3D) : Fin 3 → ℚ := ![p.x, p.y, p.z]

/-- The system matrix: `A = np.ones((n,4))` followed by
`A[row,0:3] = -2*np.array(point)` — columns 0–2 are overwritten with
`-2 ·` the point's coordinates, column 3 keeps its initial value 1.
One row per input point (the row index type is `Fin n`). -/
def designMatrix {n : ℕ} (P : Fin n → Point3D) : Matrix (Fin n) (Fin 4) ℚ :=
  Matrix.of fun i j => if h : (j : ℕ) < 3 then -2 * coords (P i) ⟨j, h⟩ else 1

/-- The right-hand side: `b[row] = -linalg.norm(point)**2`. -/
def rhsVec {n : ℕ} (P : Fin n → Point3D) : Fin n → ℚ := fun i => -(normSq (P i))

/-- Squared Euclidean norm of a vector. -/
def vnormSq {m : ℕ} (v : Fin m → ℚ) : ℚ := v ⬝ᵥ v

/-- Squared residual `‖A·u − b‖²` of a candidate solution `u`. -/
def resSq {m k : ℕ} (A : Matrix (Fin m) (Fin k) ℚ) (b : Fin m → ℚ)
    (u : Fin k → ℚ) : ℚ :=
  vnormSq (A.mulVec u - b)

/-- `u` minimises the squared residual `‖A·u − b‖²` over all vectors. -/
def IsMinimizer {m k : ℕ} (A : Matrix (Fin m) (Fin k) ℚ) (b : Fin m → ℚ)
    (u : Fin k → ℚ) : Prop :=
  ∀ v, resSq A b u ≤ resSq A b v

/-- The contract of `res,_,_,_ = linalg.lstsq(A,b)`: `res` is a
least-squares solution of `A·u ≈ b` of minimum Euclidean norm among all
least-squares solutions. -/
def IsLstsq {m k : ℕ} (A : Matrix (Fin m) (Fin k) ℚ) (b : Fin m → ℚ)
    (u : Fin k → ℚ) : Prop :=
  IsMinimizer A b u ∧ ∀ v, IsMinimizer A b v → vnormSq u ≤ vnormSq v

/-- The fitted centre, `res[0:3]` read as a point. -/
def centerOf (u : Fin 4 → ℚ) : Point3D := ⟨u 0, u 1, u 2⟩

/-- The radicand of the reported radius:
`linalg.norm(res[0:3])**2 - res[3]`. -/
def fittedRadiusSq (u : Fin 4 → ℚ) : ℚ := vnormSq (coords (centerOf u)) - u 3

/-- The reported radius `np.sqrt(linalg.norm(res[0:3])**2 - res[3])`. -/
noncomputable def fittedRadius (u : Fin 4 → ℚ) : ℝ :=
  Real.sqrt (fittedRadiusSq u)

/-! ### Basic facts about `vnormSq` and `resSq` -/

lemma vnormSq_nonneg {m : ℕ} (v : Fin m → ℚ) : 0 ≤ vnormSq v :=
  Finset.sum_nonneg fun i _ => mul_self_nonneg (v i)

lemma vnormSq_eq_zero {m : ℕ} {v : Fin m → ℚ} (h : vnormSq v = 0) : v = 0 := by
  funext i
  have hterm : ∀ j ∈ Finset.univ, 0 ≤ v j * v j := fun j _ => mul_self_nonneg (v j)
  have := (Finset.sum_eq_zero_iff_of_nonneg hterm).1 h i (Finset.mem_univ i)
  have := mul_self_eq_zero.1 this
  simpa using this

lemma vnormSq_add {m : ℕ} (a b : Fin m → ℚ) :
    vnormSq (a + b) = vnormSq a + 2 * (a ⬝ᵥ b) + vnormSq b := by
  simp only [vnormSq, dotProduct_add, add_dotProduct, dotProduct_comm b a]
  ring

lemma vnormSq_smul {m : ℕ} (t : ℚ) (a : Fin m → ℚ) :
    vnormSq (t • a) = t ^ 2 * vnormSq a := by
  simp only [vnormSq, smul_dotProduct, dotProduct_smul, smul_eq_mul]
  ring

lemma resSq_nonneg {m k : ℕ} (A : Matrix (Fin m) (Fin k) ℚ) (b : Fin m → ℚ)
    (u : Fin k → ℚ) : 0 ≤ resSq A b u :=
  vnormSq_nonneg _

lemma resSq_add {m k : ℕ} (A : Matrix (Fin m) (Fin k) ℚ) (b : Fin m → ℚ)
    (u w : Fin k → ℚ) :
    resSq A b (u + w) =
      resSq A b u + 2 * ((A.mulVec u - b) ⬝ᵥ A.mulVec w) + vnormSq (A.mulVec w) := by
  have h : A.mulVec (u + w) - b = (A.mulVec u - b) + A.mulVec w := by
    rw [Matrix.mulVec_add]; abel
  rw [resSq, h, vnormSq_add]
  rfl

lemma minimizer_of_resSq_eq_zero {m k : ℕ} {A : Matrix (Fin m) (Fin k) ℚ}
    {b : Fin m → ℚ} {u : Fin k → ℚ} (h : resSq A b u = 0) :
    IsMinimizer A b u := fun v => h ▸ resSq_nonneg A b v

lemma residual_eq_zero_of_minimizer_resSq_zero {m k : ℕ}
    {A : Matrix (Fin m) (Fin k) ℚ} {b : Fin m → ℚ} {u v : Fin k → ℚ}
    (h : resSq A b u = 0) (hv : IsMinimizer A b v) :
    A.mulVec v - b = 0 := by
  have h1 : resSq A b v ≤ 0 := h ▸ hv u
  have h2 : resSq A b v = 0 := le_antisymm h1 (resSq_nonneg A b v)
  exact vnormSq_eq_zero h2

/-! ### Normal equations characterise minimisers -/

lemma cross_eq {m k : ℕ} (A : Matrix (Fin m) (Fin k) ℚ) (r : Fin m → ℚ)
    (w : Fin k → ℚ) : r ⬝ᵥ A.mulVec w = Aᵀ.mulVec r ⬝ᵥ w := by
  rw [dotProduct_mulVec, mulVec_transpose]

lemma minimizer_of_normal {m k : ℕ} {A : Matrix (Fin m) (Fin k) ℚ}
    {b : Fin m → ℚ} {u : Fin k → ℚ}
    (h : Aᵀ.mulVec (A.mulVec u - b) = 0) : IsMinimizer A b u := by
  intro v
  have hv : v = u + (v - u) := by abel
  rw [hv, resSq_add]
  have hc : (A.mulVec u - b) ⬝ᵥ A.mulVec (v - u) = 0 := by
    rw [cross_eq, h, zero_dotProduct]
  rw [hc]
  have := vnormSq_nonneg (A.mulVec (v - u))
  linarith

lemma normal_of_minimizer {m k : ℕ} {A : Matrix (Fin m) (Fin k) ℚ}
    {b : Fin m → ℚ} {u : Fin k → ℚ} (h : IsMinimizer A b u) :
    Aᵀ.mulVec (A.mulVec u - b) = 0 := by
  by_contra hg
  set g : Fin k → ℚ := Aᵀ.mulVec (A.mulVec u - b) with hgdef
  have hc : 0 < vnormSq g := by
    rcases lt_or_eq_of_le (vnormSq_nonneg g) with h' | h'
    · exact h'
    · exact absurd (vnormSq_eq_zero h'.symm) hg
  set c : ℚ := vnormSq g with hcdef
  set q : ℚ := vnormSq (A.mulVec g) with hqdef
  have hq0 : 0 ≤ q := vnormSq_nonneg _
  have key : ∀ t : ℚ, 0 ≤ 2 * t * c + t ^ 2 * q := by
    intro t
    have h1 := h (u + t • g)
    rw [resSq_add] at h1
    have hcross : (A.mulVec u - b) ⬝ᵥ A.mulVec (t • g) = t * c := by
      rw [Matrix.mulVec_smul, dotProduct_smul, cross_eq]
      simp only [smul_eq_mul, hcdef, vnormSq, hgdef]
    rw [hcross, Matrix.mulVec_smul] at h1
    have hsm : vnormSq (t • A.mulVec g) = t ^ 2 * q := vnormSq_smul t _
    rw [hsm] at h1
    linarith
  rcases eq_or_lt_of_le hq0 with hq | hq
  · have := key (-1)
    nlinarith
  · have := key (-c / q)
    have hq' : q ≠ 0 := ne_of_gt hq
    have hexp : 2 * (-c / q) * c + (-c / q) ^ 2 * q = -(c ^ 2 / q) := by
      field_simp
      ring
    rw [hexp] at this
    have : c ^ 2 / q ≤ 0 := by linarith
    have hcpos : 0 < c ^ 2 := by positivity
    have : 0 < c ^ 2 / q := div_pos hcpos hq
    linarith

lemma mulVec_eq_of_minimizers {m k : ℕ} {A : Matrix (Fin m) (Fin k) ℚ}
    {b : Fin m → ℚ} {u v : Fin k → ℚ}
    (hu : IsMinimizer A b u) (hv : IsMinimizer A b v) :
    A.mulVec u = A.mulVec v := by
  have hnu := normal_of_minimizer hu
  have hnv := normal_of_minimizer hv
  have hsub : Aᵀ.mulVec (A.mulVec (u - v)) = 0 := by
    have : A.mulVec (u - v) = (A.mulVec u - b) - (A.mulVec v - b) := by
      rw [Matrix.mulVec_sub]; abel
    rw [this, Matrix.mulVec_sub, hnu, hnv, sub_zero]
  have hz : vnormSq (A.mulVec (u - v)) = 0 := by
    have : A.mulVec (u - v) ⬝ᵥ A.mulVec (u - v) = 0 := by
      rw [cross_eq, hsub, zero_dotProduct]
    simpa [vnormSq] using this
  have := vnormSq_eq_zero hz
  have h' : A.mulVec u - A.mulVec v = 0 := by rw [← Matrix.mulVec_sub]; exact this
  exact sub_eq_zero.1 h'

lemma minimizer_unique_of_rank {m k : ℕ} {A : Matrix (Fin m) (Fin k) ℚ}
    {b : Fin m → ℚ} {u v : Fin k → ℚ}
    (hrank : ∀ w, A.mulVec w = 0 → w = 0)
    (hu : IsMinimizer A b u) (hv : IsMinimizer A b v) : u = v := by
  have h := mulVec_eq_of_minimizers hu hv
  have : A.mulVec (u - v) = 0 := by rw [Matrix.mulVec_sub, h, sub_self]
  have := hrank _ this
  exact sub_eq_zero.1 this

lemma lstsq_of_minimizer_of_rank {m k : ℕ} {A : Matrix (Fin m) (Fin k) ℚ}
    {b : Fin m → ℚ} {u : Fin k → ℚ}
    (hrank : ∀ w, A.mulVec w = 0 → w = 0)
    (hu : IsMinimizer A b u) : IsLstsq A b u :=
  ⟨hu, fun v hv => by rw [minimizer_unique_of_rank hrank hu hv]⟩

lemma lstsq_unique {m k : ℕ} {A : Matrix (Fin m) (Fin k) ℚ}
    {b : Fin m → ℚ} {u v : Fin k → ℚ}
    (hu : IsLstsq A b u) (hv : IsLstsq A b v) : u = v := by
  have hAB := mulVec_eq_of_minimizers hu.1 hv.1
  set s : Fin k → ℚ := (1 / 2 : ℚ) • (u + v) with hsdef
  have hAs : A.mulVec s = A.mulVec u := by
    rw [hsdef, Matrix.mulVec_smul, Matrix.mulVec_add, ← hAB]
    funext i
    simp only [Pi.smul_apply, Pi.add_apply, smul_eq_mul]
    ring
  have hms : IsMinimizer A b s := by
    intro w
    have : resSq A b s = resSq A b u := by rw [resSq, resSq, hAs]
    rw [this]; exact hu.1 w
  have h1 : vnormSq u ≤ vnormSq s := hu.2 s hms
  have h2 : vnormSq u ≤ vnormSq v := hu.2 v hv.1
  have h3 : vnormSq v ≤ vnormSq u := hv.2 u hu.1
  have hpar : vnormSq s = (1 / 4) * (vnormSq u + 2 * (u ⬝ᵥ v) + vnormSq v) := by
    rw [hsdef, vnormSq_smul, vnormSq_add]
    ring
  have hsub : vnormSq (u - v) = vnormSq u - 2 * (u ⬝ᵥ v) + vnormSq v := by
    have : u - v = u + (-1 : ℚ) • v := by funext i; simp; ring
    rw [this, vnormSq_add, vnormSq_smul, dotProduct_smul]
    simp only [smul_eq_mul]
    ring
  have hz : vnormSq (u - v) ≤ 0 := by
    have heq : vnormSq u = vnormSq v := le_antisymm h2 h3
    rw [hsub]
    rw [hpar, heq] at h1
    linarith
  have hz' : vnormSq (u - v) = 0 := le_antisymm hz (vnormSq_nonneg _)
  exact sub_eq_zero.1 (vnormSq_eq_zero hz')

/-! ### Entrywise evaluation lemmas -/

@[simp] lemma designMatrix_apply0 {n : ℕ} (P : Fin n → Point3D) (i : Fin n) :
    designMatrix P i 0 = -2 * (P i).x := rfl

@[simp] lemma designMatrix_apply1 {n : ℕ} (P : Fin n → Point3D) (i : Fin n) :
    designMatrix P i 1 = -2 * (P i).y := rfl

@[simp] lemma designMatrix_apply2 {n : ℕ} (P : Fin n → Point3D) (i : Fin n) :
    designMatrix P i 2 = -2 * (P i).z := rfl

@[simp] lemma designMatrix_apply3 {n : ℕ} (P : Fin n → Point3D) (i : Fin n) :
    designMatrix P i 3 = 1 := rfl

lemma mulVec_apply4 {n : ℕ} (A : Matrix (Fin n) (Fin 4) ℚ) (v : Fin 4 → ℚ)
    (i : Fin n) :
    A.mulVec v i = A i 0 * v 0 + A i 1 * v 1 + A i 2 * v 2 + A i 3 * v 3 := by
  simp [Matrix.mulVec, dotProduct, Fin.sum_univ_four]

lemma vnormSq_apply4 (v : Fin 4 → ℚ) :
    vnormSq v = v 0 * v 0 + v 1 * v 1 + v 2 * v 2 + v 3 * v 3 := by
  simp [vnormSq, dotProduct, Fin.sum_univ_four]

lemma vnormSq_apply3 (v : Fin 3 → ℚ) :
    vnormSq v = v 0 * v 0 + v 1 * v 1 + v 2 * v 2 := by
  simp [vnormSq, dotProduct, Fin.sum_univ_three]

lemma fittedRadiusSq_eq (u : Fin 4 → ℚ) :
    fittedRadiusSq u = u 0 ^ 2 + u 1 ^ 2 + u 2 ^ 2 - u 3 := by
  simp [fittedRadiusSq, vnormSq_apply3, centerOf, coords]
  ring

/-! ### The fitted squared radius of a least-squares solution is never
negative: the normal equation for the all-ones column of `A` forces
`n · (‖c‖² − k) = Σᵢ ‖pᵢ − c‖²`. -/

lemma sum_residual_eq_zero {n : ℕ} {P : Fin n → Point3D} {u : Fin 4 → ℚ}
    (hu : IsMinimizer (designMatrix P) (rhsVec P) u) :
    ∑ i, ((designMatrix P).mulVec u - rhsVec P) i = 0 := by
  have hn := normal_of_minimizer hu
  have h3 := congrFun hn 3
  simpa [Matrix.mulVec, dotProduct, Matrix.transpose_apply] using h3

lemma radiusSq_key {n : ℕ} {P : Fin n → Point3D} {u : Fin 4 → ℚ}
    (hu : IsMinimizer (designMatrix P) (rhsVec P) u) :
    (n : ℚ) * fittedRadiusSq u =
      ∑ i, (((P i).x - u 0) ^ 2 + ((P i).y - u 1) ^ 2 + ((P i).z - u 2) ^ 2) := by
  have hsum := sum_residual_eq_zero hu
  have hterm : ∀ i : Fin n,
      ((P i).x - u 0) ^ 2 + ((P i).y - u 1) ^ 2 + ((P i).z - u 2) ^ 2
        = ((designMatrix P).mulVec u - rhsVec P) i + fittedRadiusSq u := by
    intro i
    simp only [Pi.sub_apply, mulVec_apply4, designMatrix_apply0, designMatrix_apply1,
      designMatrix_apply2, designMatrix_apply3, rhsVec, normSq, fittedRadiusSq_eq]
    ring
  rw [Finset.sum_congr rfl fun i _ => hterm i, Finset.sum_add_distrib, hsum, zero_add,
    Finset.sum_const, Finset.card_univ, Fintype.card_fin, nsmul_eq_mul]

lemma radiusSq_nonneg_of_lstsq {n : ℕ} {P : Fin n → Point3D} {u : Fin 4 → ℚ}
    (hu : IsLstsq (designMatrix P) (rhsVec P) u) : 0 ≤ fittedRadiusSq u := by
  rcases Nat.eq_zero_or_pos n with hn | hn
  · subst hn
    have hmin0 : IsMinimizer (designMatrix P) (rhsVec P) (0 : Fin 4 → ℚ) := by
      intro v
      simp [resSq, vnormSq, dotProduct]
    have h := hu.2 0 hmin0
    have h0 : vnormSq (0 : Fin 4 → ℚ) = 0 := by simp [vnormSq]
    have hu0 : u = 0 := vnormSq_eq_zero (le_antisymm (h0 ▸ h) (vnormSq_nonneg u))
    rw [fittedRadiusSq_eq, hu0]
    norm_num
  · have key := radiusSq_key hu.1
    have hs : 0 ≤ ∑ i : Fin n,
        (((P i).x - u 0) ^ 2 + ((P i).y - u 1) ^ 2 + ((P i).z - u 2) ^ 2) :=
      Finset.sum_nonneg fun i _ => by positivity
    have hncast : (0 : ℚ) < n := by exact_mod_cast hn
    nlinarith [key, hs]

/-! ### Translation of a point cloud -/

/-- Translation of a point by the vector `t`. -/
def translatePt (t p : Point3D) : Point3D := ⟨p.x + t.x, p.y + t.y, p.z + t.z⟩

/-- Pointwise translation of a cloud. -/
def translateCloud {n : ℕ} (t : Point3D) (P : Fin n → Point3D) :
    Fin n → Point3D :=
  fun i => translatePt t (P i)

/-- The image of a candidate solution under translation by `t`:
the centre moves by `t` and `k = ‖c‖² − r²` is adjusted accordingly. -/
def shiftSol (t : Point3D) (u : Fin 4 → ℚ) : Fin 4 → ℚ :=
  ![u 0 + t.x, u 1 + t.y, u 2 + t.z,
    u 3 + 2 * (u 0 * t.x + u 1 * t.y + u 2 * t.z) + normSq t]

/-- The inverse of `shiftSol t`. -/
def unshiftSol (t : Point3D) (y : Fin 4 → ℚ) : Fin 4 → ℚ :=
  ![y 0 - t.x, y 1 - t.y, y 2 - t.z,
    y 3 - 2 * ((y 0 - t.x) * t.x + (y 1 - t.y) * t.y + (y 2 - t.z) * t.z) -
      normSq t]

lemma shiftSol_unshiftSol (t : Point3D) (y : Fin 4 → ℚ) :
    shiftSol t (unshiftSol t y) = y := by
  funext j
  fin_cases j <;> (simp [shiftSol, unshiftSol, normSq]; try ring)

lemma residual_translate {n : ℕ} (t : Point3D) (P : Fin n → Point3D)
    (w : Fin 4 → ℚ) :
    (designMatrix (translateCloud t P)).mulVec (shiftSol t w) -
        rhsVec (translateCloud t P)
      = (designMatrix P).mulVec w - rhsVec P := by
  funext i
  simp only [Pi.sub_apply, mulVec_apply4, designMatrix_apply0, designMatrix_apply1,
    designMatrix_apply2, designMatrix_apply3, rhsVec, normSq, translateCloud,
    translatePt, shiftSol]
  simp
  ring

lemma resSq_translate {n : ℕ} (t : Point3D) (P : Fin n → Point3D)
    (w : Fin 4 → ℚ) :
    resSq (designMatrix (translateCloud t P)) (rhsVec (translateCloud t P))
        (shiftSol t w)
      = resSq (designMatrix P) (rhsVec P) w := by
  unfold resSq
  rw [residual_translate]

lemma rank_translate {n : ℕ} (t : Point3D) (P : Fin n → Point3D)
    (hrank : ∀ w, (designMatrix P).mulVec w = 0 → w = 0) :
    ∀ w, (designMatrix (translateCloud t P)).mulVec w = 0 → w = 0 := by
  intro w hw
  set d : Fin 4 → ℚ :=
    ![w 0, w 1, w 2, w 3 - 2 * (w 0 * t.x + w 1 * t.y + w 2 * t.z)] with hd
  have hAd : (designMatrix P).mulVec d =
      (designMatrix (translateCloud t P)).mulVec w := by
    funext i
    simp only [mulVec_apply4, designMatrix_apply0, designMatrix_apply1,
      designMatrix_apply2, designMatrix_apply3, translateCloud, translatePt, hd]
    simp
    ring
  have hd0 : d = 0 := hrank d (by rw [hAd, hw])
  have e0 := congrFun hd0 0
  have e1 := congrFun hd0 1
  have e2 := congrFun hd0 2
  have e3 := congrFun hd0 3
  simp [hd] at e0 e1 e2 e3
  have e4 : w 3 = 0 := by
    rw [e0, e1, e2] at e3
    simpa using e3
  funext j
  fin_cases j <;> simp [e0, e1, e2, e4]

lemma minimizer_translate {n : ℕ} (t : Point3D) (P : Fin n → Point3D)
    {u : Fin 4 → ℚ} (hm : IsMinimizer (designMatrix P) (rhsVec P) u) :
    IsMinimizer (designMatrix (translateCloud t P))
      (rhsVec (translateCloud t P)) (shiftSol t u) := by
  intro y
  rw [resSq_translate]
  calc resSq (designMatrix P) (rhsVec P) u
      ≤ resSq (designMatrix P) (rhsVec P) (unshiftSol t y) := hm _
    _ = resSq (designMatrix (translateCloud t P)) (rhsVec (translateCloud t P))
          (shiftSol t (unshiftSol t y)) := (resSq_translate t P _).symm
    _ = resSq (designMatrix (translateCloud t P)) (rhsVec (translateCloud t P))
          y := by rw [shiftSol_unshiftSol]

/-! ### Concrete point clouds -/

/-- The four unit-sphere points of the spec scenario:
`(1,0,0), (-1,0,0), (0,1,0), (0,0,1)`. -/
def P4 : Fin 4 → Point3D := ![⟨1, 0, 0⟩, ⟨-1, 0, 0⟩, ⟨0, 1, 0⟩, ⟨0, 0, 1⟩]

/-- The exact fit for `P4`: centre `(0,0,0)`, `k = -1`. -/
def u4 : Fin 4 → ℚ := ![0, 0, 0, -1]

lemma resSq_P4_u4 : resSq (designMatrix P4) (rhsVec P4) u4 = 0 := by
  simp [resSq, vnormSq_apply4, mulVec_apply4, P4, u4, rhsVec, normSq]

lemma rank_P4 : ∀ w, (designMatrix P4).mulVec w = 0 → w = 0 := by
  intro w h
  have h0 := congrFun h 0
  have h1 := congrFun h 1
  have h2 := congrFun h 2
  have h3 := congrFun h 3
  rw [mulVec_apply4] at h0 h1 h2 h3
  simp [P4] at h0 h1 h2 h3
  funext j
  fin_cases j <;> simp <;> linarith

lemma lstsq_P4 : IsLstsq (designMatrix P4) (rhsVec P4) u4 :=
  lstsq_of_minimizer_of_rank rank_P4 (minimizer_of_resSq_eq_zero resSq_P4_u4)

/-- A single input point, `(1,0,0)`: a cloud with fewer than 4 points. -/
def P1 : Fin 1 → Point3D := ![⟨1, 0, 0⟩]

/-- The minimum-norm least-squares solution for the single point `(1,0,0)`. -/
def uP1 : Fin 4 → ℚ := ![2 / 5, 0, 0, -1 / 5]

lemma resSq_P1_uP1 : resSq (designMatrix P1) (rhsVec P1) uP1 = 0 := by
  simp [resSq, vnormSq, dotProduct, Fin.sum_univ_one, mulVec_apply4, P1, uP1,
    rhsVec, normSq]
  norm_num

lemma lstsq_P1 : IsLstsq (designMatrix P1) (rhsVec P1) uP1 := by
  refine ⟨minimizer_of_resSq_eq_zero resSq_P1_uP1, ?_⟩
  intro v hv
  have hres := residual_eq_zero_of_minimizer_resSq_zero resSq_P1_uP1 hv
  have h0 := congrFun hres 0
  simp only [Pi.sub_apply, Pi.zero_apply, mulVec_apply4] at h0
  simp [P1, rhsVec, normSq] at h0
  rw [vnormSq_apply4, vnormSq_apply4]
  simp only [uP1]
  norm_num
  nlinarith [sq_nonneg (v 0 + 2 * v 3), sq_nonneg (v 1), sq_nonneg (v 2)]

/-- Four coplanar points (all on the plane `z = 0`), so that the system
matrix is rank-deficient. -/
def P6 : Fin 4 → Point3D := ![⟨1, 0, 0⟩, ⟨-1, 0, 0⟩, ⟨0, 1, 0⟩, ⟨0, -1, 0⟩]

/-- The minimum-norm least-squares solution for the coplanar cloud `P6`. -/
def u6 : Fin 4 → ℚ := ![0, 0, 0, -1]

lemma resSq_P6_u6 : resSq (designMatrix P6) (rhsVec P6) u6 = 0 := by
  simp [resSq, vnormSq_apply4, mulVec_apply4, P6, u6, rhsVec, normSq]

lemma lstsq_P6 : IsLstsq (designMatrix P6) (rhsVec P6) u6 := by
  refine ⟨minimizer_of_resSq_eq_zero resSq_P6_u6, ?_⟩
  intro v hv
  have hres := residual_eq_zero_of_minimizer_resSq_zero resSq_P6_u6 hv
  have h0 := congrFun hres 0
  have h1 := congrFun hres 1
  have h2 := congrFun hres 2
  simp only [Pi.sub_apply, Pi.zero_apply, mulVec_apply4] at h0 h1 h2
  simp [P6, rhsVec, normSq] at h0 h1 h2
  rw [vnormSq_apply4, vnormSq_apply4]
  simp only [u6]
  norm_num
  nlinarith [sq_nonneg (v 2)]

/-- The translation vector used in the equivariance scenario. -/
def t10 : Point3D := ⟨1, 0, 0⟩

/-- The exact fit for `P4` translated by `t10`: centre `(1,0,0)`, `k = 0`. -/
def u4t : Fin 4 → ℚ := ![1, 0, 0, 0]

lemma shift_u4 : shiftSol t10 u4 = u4t := by
  funext j
  fin_cases j <;> simp [shiftSol, u4, u4t, t10, normSq]

lemma lstsq_P4t :
    IsLstsq (designMatrix (translateCloud t10 P4))
      (rhsVec (translateCloud t10 P4)) u4t := by
  rw [← shift_u4]
  exact lstsq_of_minimizer_of_rank (rank_translate t10 P4 rank_P4)
    (minimizer_translate t10 P4 lstsq_P4.1)

/-! ### The claims -/

/-- C1: for every input point cloud the routine builds the linear system
exactly as specified: row `i` of `A` is `(-2·xᵢ, -2·yᵢ, -2·zᵢ, 1)` and
entry `i` of `b` is `-‖pᵢ‖²`; there is exactly one row per input point
(the row index ranges over `Fin n`, `n` the number of points). -/
theorem claim_C1 {n : ℕ} (P : Fin n → Point3D) (i : Fin n) :
    designMatrix P i = ![-2 * (P i).x, -2 * (P i).y, -2 * (P i).z, 1] ∧
      rhsVec P i = -((P i).x ^ 2 + (P i).y ^ 2 + (P i).z ^ 2) := by
  constructor
  · funext j
    fin_cases j <;> simp
  · rfl

/-- C2: for a cloud of at least 4 points whose system matrix has full
column rank, the output of `linalg.lstsq` is the unique minimiser of
`‖A·u − b‖²` over all vectors `u`. -/
theorem claim_C2 {n : ℕ} (P : Fin n → Point3D) (u : Fin 4 → ℚ)
    (_hn : 4 ≤ n)
    (hrank : ∀ w, (designMatrix P).mulVec w = 0 → w = 0)
    (hu : IsLstsq (designMatrix P) (rhsVec P) u) :
    IsMinimizer (designMatrix P) (rhsVec P) u ∧
      ∀ v, IsMinimizer (designMatrix P) (rhsVec P) v → v = u :=
  ⟨hu.1, fun _ hv => minimizer_unique_of_rank hrank hv hu.1⟩

/-- Witness for C2 at the concrete cloud `P4`. -/
theorem claim_C2_witness :
    IsMinimizer (designMatrix P4) (rhsVec P4) u4 ∧
      ∀ v, IsMinimizer (designMatrix P4) (rhsVec P4) v → v = u4 :=
  claim_C2 P4 u4 (by decide) rank_P4 lstsq_P4

/-- C3: from the solution `u = (cx, cy, cz, k)` the routine reports the
centre `(cx, cy, cz)` and the radius `sqrt(‖(cx,cy,cz)‖² − k)` (the
source's slice formula `norm(res[0:3])² - res[3]` equals the spec's
`‖center‖² − k`). -/
theorem claim_C3 (u : Fin 4 → ℚ) :
    centerOf u = ⟨u 0, u 1, u 2⟩ ∧
      fittedRadius u = Real.sqrt ((normSq (centerOf u) - u 3 : ℚ) : ℝ) := by
  refine ⟨rfl, ?_⟩
  have h : fittedRadiusSq u = normSq (centerOf u) - u 3 := by
    rw [fittedRadiusSq_eq]
    simp [normSq, centerOf]
  simp only [fittedRadius, h]

/-- C4: for the four points `(1,0,0), (-1,0,0), (0,1,0), (0,0,1)` the fit
returns centre `(0,0,0)` and radius exactly `1`. -/
theorem claim_C4 :
    IsLstsq (designMatrix P4) (rhsVec P4) u4 ∧
      centerOf u4 = ⟨0, 0, 0⟩ ∧ fittedRadiusSq u4 = 1 ∧ fittedRadius u4 = 1 := by
  have hr : fittedRadiusSq u4 = 1 := by
    rw [fittedRadiusSq_eq]
    simp [u4]
  refine ⟨lstsq_P4, ?_, hr, ?_⟩
  · simp [centerOf, u4]
  · simp only [fittedRadius, hr]
    rw [show ((1 : ℚ) : ℝ) = 1 by norm_num, Real.sqrt_one]

/-- C5 counterexample: the code performs no point-count check.  For the
single-point cloud `P1` (1 point < 4) `linalg.lstsq` still has a
well-defined output and the routine returns an ordinary result instead of
failing. -/
theorem claim_C5_counterexample :
    ∃ u, IsLstsq (designMatrix P1) (rhsVec P1) u :=
  ⟨uP1, lstsq_P1⟩

/-- C5 amended: for the single point `(1,0,0)` the routine returns the
minimum-norm least-squares solution: centre `(2/5, 0, 0)` and squared
radius `9/25` (radius `3/5`), with no error reported. -/
theorem claim_C5_amended :
    IsLstsq (designMatrix P1) (rhsVec P1) uP1 ∧
      centerOf uP1 = ⟨2 / 5, 0, 0⟩ ∧ fittedRadiusSq uP1 = 9 / 25 := by
  refine ⟨lstsq_P1, ?_, ?_⟩
  · simp [centerOf, uP1]
  · rw [fittedRadiusSq_eq]
    simp [uP1]
    norm_num

/-- C6 counterexample: for the coplanar cloud `P6` (all `z = 0`) the
system matrix is rank-deficient, yet `linalg.lstsq` still has a
well-defined output and the routine returns an ordinary result instead of
failing. -/
theorem claim_C6_counterexample :
    (∃ w, w ≠ 0 ∧ (designMatrix P6).mulVec w = 0) ∧
      ∃ u, IsLstsq (designMatrix P6) (rhsVec P6) u := by
  constructor
  · refine ⟨![0, 0, 1, 0], ?_, ?_⟩
    · intro h
      have := congrFun h 2
      simp at this
    · funext i
      rw [mulVec_apply4]
      fin_cases i <;> simp [P6]
  · exact ⟨u6, lstsq_P6⟩

/-- C6 amended: for the four coplanar points on the unit circle `z = 0`
the routine returns the minimum-norm least-squares solution: centre
`(0,0,0)` and squared radius `1`, with no rank check and no error. -/
theorem claim_C6_amended :
    IsLstsq (designMatrix P6) (rhsVec P6) u6 ∧
      centerOf u6 = ⟨0, 0, 0⟩ ∧ fittedRadiusSq u6 = 1 := by
  refine ⟨lstsq_P6, ?_, ?_⟩
  · simp [centerOf, u6]
  · rw [fittedRadiusSq_eq]
    simp [u6]

/-- C7: the guarded situation of the claim is unreachable, so the claim
holds (vacuously): for any least-squares solution the computed
squared-radius term is never negative, because the normal equation of the
all-ones column forces `n·(‖c‖² − k) = Σᵢ ‖pᵢ − c‖² ≥ 0`.  The unguarded
square root of the source never receives a negative radicand in exact
arithmetic. -/
theorem claim_C7 {n : ℕ} (P : Fin n → Point3D) (u : Fin 4 → ℚ)
    (hu : IsLstsq (designMatrix P) (rhsVec P) u) :
    ¬ fittedRadiusSq u < 0 :=
  not_lt.2 (radiusSq_nonneg_of_lstsq hu)

/-- Witness for C7 at the concrete cloud `P4`. -/
theorem claim_C7_witness : ¬ fittedRadiusSq u4 < 0 :=
  claim_C7 P4 u4 lstsq_P4

/-- C8: every result produced by the fit has a non-negative squared
radius, and the reported radius is a well-defined non-negative real whose
square is the squared-radius term. -/
theorem claim_C8 {n : ℕ} (P : Fin n → Point3D) (u : Fin 4 → ℚ)
    (hu : IsLstsq (designMatrix P) (rhsVec P) u) :
    0 ≤ fittedRadiusSq u ∧ 0 ≤ fittedRadius u ∧
      fittedRadius u ^ 2 = ((fittedRadiusSq u : ℚ) : ℝ) := by
  have h := radiusSq_nonneg_of_lstsq hu
  refine ⟨h, Real.sqrt_nonneg _, ?_⟩
  simp only [fittedRadius]
  rw [Real.sq_sqrt (by exact_mod_cast h)]

/-- Witness for C8 at the concrete cloud `P4`. -/
theorem claim_C8_witness :
    0 ≤ fittedRadiusSq u4 ∧ 0 ≤ fittedRadius u4 ∧
      fittedRadius u4 ^ 2 = ((fittedRadiusSq u4 : ℚ) : ℝ) :=
  claim_C8 P4 u4 lstsq_P4

/-- C9: determinism — the contract of `linalg.lstsq` determines its output
uniquely, so two runs on the identical cloud produce the identical
solution, centre and radius. -/
theorem claim_C9 {n : ℕ} (P : Fin n → Point3D) (u v : Fin 4 → ℚ)
    (hu : IsLstsq (designMatrix P) (rhsVec P) u)
    (hv : IsLstsq (designMatrix P) (rhsVec P) v) :
    u = v ∧ centerOf u = centerOf v ∧ fittedRadius u = fittedRadius v := by
  have h := lstsq_unique hu hv
  exact ⟨h, by rw [h], by rw [h]⟩

/-- Witness for C9 at the concrete cloud `P4`. -/
theorem claim_C9_witness :
    u4 = u4 ∧ centerOf u4 = centerOf u4 ∧ fittedRadius u4 = fittedRadius u4 :=
  claim_C9 P4 u4 u4 lstsq_P4 lstsq_P4

/-- C10: translation equivariance — translating every input point by `t`
translates the fitted centre by `t` and leaves the (squared) radius
unchanged, for clouds whose system matrix has full column rank. -/
theorem claim_C10 {n : ℕ} (t : Point3D) (P : Fin n → Point3D)
    (u v : Fin 4 → ℚ)
    (hrank : ∀ w, (designMatrix P).mulVec w = 0 → w = 0)
    (hu : IsLstsq (designMatrix P) (rhsVec P) u)
    (hv : IsLstsq (designMatrix (translateCloud t P))
      (rhsVec (translateCloud t P)) v) :
    centerOf v = translatePt t (centerOf u) ∧
      fittedRadiusSq v = fittedRadiusSq u ∧
      fittedRadius v = fittedRadius u := by
  have hv' : v = shiftSol t u :=
    minimizer_unique_of_rank (rank_translate t P hrank) hv.1
      (minimizer_translate t P hu.1)
  have hrad : fittedRadiusSq v = fittedRadiusSq u := by
    rw [hv', fittedRadiusSq_eq, fittedRadiusSq_eq]
    simp [shiftSol, normSq]
    ring
  refine ⟨?_, hrad, ?_⟩
  · rw [hv']
    simp [centerOf, shiftSol, translatePt]
  · simp only [fittedRadius, hrad]

/-- Witness for C10: `P4` translated by `(1,0,0)`. -/
theorem claim_C10_witness :
    centerOf u4t = translatePt t10 (centerOf u4) ∧
      fittedRadiusSq u4t = fittedRadiusSq u4 ∧
      fittedRadius u4t = fittedRadius u4 :=
  claim_C10 t10 P4 u4 u4t rank_P4 lstsq_P4 lstsq_P4t

end SphereFit
